import Mathlib

/-!
Verification of the interval-timeline construction and merge algorithm of
`sonix/core/audio.py` (the `acoustix` repository).

The Python functions are embedded shallowly:

* `merge_intervals`       — embeds `merge_intervals` (audio.py, lines 17-35);
  the `functools.reduce` over `_reducer` becomes `List.foldl` over `step`.
* `entries_from_intervals` — embeds `entries_from_intervals` (lines 107-134);
  the `zip_longest`-based interleaving becomes the recursive `interleave`.
* `entries_to_segments`   — embeds `entries_to_segments` (lines 137-155);
  Python floats become rationals, `int()` truncation becomes `pyInt`.
* `split_audio_into_segments` — embeds lines 83-104; the external detector
  `librosa.effects.split(data, top_db)` is modelled by passing its output
  (the raw active sample ranges) and the waveform length as parameters.
* `diarize_with_silence`  — embeds lines 174-211; the external pyannote
  pipeline call is modelled by a parameter holding its outcome (a track
  list on success, an error token when the `try` body raises).

Sample indices are Python integers, embedded as `Int`; time values are
embedded as `ℚ` (exact arithmetic standing in for Python floats).
-/

namespace Sonix

/-- Interval `(s, e, is_speech)` — a labeled half-open sample range, the
`(start, end, bool)` tuples used throughout `audio.py`. -/
structure Interval where
  s : Int
  e : Int
  is_speech : Bool
deriving DecidableEq, Repr

/-- Segment dict produced by `entries_to_segments`: keys `start_time_sec`,
`end_time_sec`, `label`, `transcript`. -/
structure Segment where
  start_time_sec : ℚ
  end_time_sec : ℚ
  label : String
  transcript : String
deriving DecidableEq, Repr

/-- One step of the `_reducer` closure inside `merge_intervals`:
`if not acc: return [cur]`, then the two merge rules on `acc[-1]`,
otherwise `acc + [cur]`. -/
def step (min_gap : Int) (acc : List Interval) (cur : Interval) : List Interval :=
  match acc.getLast? with
  | none => [cur]
  | some p =>
    if p.is_speech = false ∧ cur.is_speech = false ∧ cur.e - cur.s ≤ min_gap then
      acc.dropLast ++ [⟨p.s, cur.e, false⟩]
    else if p.is_speech = false ∧ cur.is_speech = true ∧ cur.s - p.e ≤ min_gap then
      acc.dropLast ++ [⟨p.s, cur.e, true⟩]
    else
      acc ++ [cur]

/-- Embeds `merge_intervals(entries, min_gap)`: `reduce(_reducer, entries, [])`. -/
def merge_intervals (entries : List Interval) (min_gap : Int) : List Interval :=
  entries.foldl (step min_gap) []

/-- The silence comprehension of `entries_from_intervals`: silence gaps
between consecutive detected ranges, emitted only when
`intervals[i+1, 0] > intervals[i, 1]`. -/
def silencesBetween (intervals : List (Int × Int)) : List Interval :=
  (intervals.zip intervals.tail).filterMap fun ab =>
    if ab.2.1 > ab.1.2 then some ⟨ab.1.2, ab.2.1, false⟩ else none

/-- The `zip_longest(speech_iter, silences_iter)` flattening of
`entries_from_intervals`, with `None` fill values dropped (`if item`). -/
def interleave : List Interval → List Interval → List Interval
  | [], ys => ys
  | x :: xs, [] => x :: xs
  | x :: xs, y :: ys => x :: y :: interleave xs ys

/-- Embeds `entries_from_intervals(intervals, total)` (audio.py 107-134):
leading silence, detected ranges as speech, positionally interleaved
compressed silence list, trailing silence. -/
def entries_from_intervals (intervals : List (Int × Int)) (total : Int) : List Interval :=
  match intervals with
  | [] => [⟨0, total, false⟩]
  | first :: rest =>
    let lastR := (first :: rest).getLast (List.cons_ne_nil first rest)
    let initial : List Interval := if first.1 > 0 then [⟨0, first.1, false⟩] else []
    let speeches : List Interval := (first :: rest).map fun r => ⟨r.1, r.2, true⟩
    let tl : List Interval := if lastR.2 < total then [⟨lastR.2, total, false⟩] else []
    initial ++ interleave speeches (silencesBetween (first :: rest)) ++ tl

/-- Python `int()` applied to a rational: truncation toward zero. -/
def pyInt (q : ℚ) : Int :=
  if 0 ≤ q then ⌊q⌋ else ⌈q⌉

/-- Embeds `entries_to_segments(collapsed, sr, total, pad_sec)`
(audio.py 137-155): speech boundaries padded by `pad = int(pad_sec * sr)`
and clamped to `[0, total]`, silence boundaries exact, all divided by `sr`. -/
def entries_to_segments (collapsed : List Interval) (sr : Int) (total : Int)
    (pad_sec : ℚ) : List Segment :=
  let pad : Int := pyInt (pad_sec * (sr : ℚ))
  collapsed.map fun iv =>
    if iv.is_speech then
      { start_time_sec := ((max 0 (iv.s - pad) : Int) : ℚ) / (sr : ℚ)
        end_time_sec := ((min total (iv.e + pad) : Int) : ℚ) / (sr : ℚ)
        label := "speech"
        transcript := "" }
    else
      { start_time_sec := ((iv.s : Int) : ℚ) / (sr : ℚ)
        end_time_sec := ((iv.e : Int) : ℚ) / (sr : ℚ)
        label := "silence"
        transcript := "" }

/-- Embeds `split_audio_into_segments(data, sr, top_db, min_silence_len_sec,
pad_sec)` (audio.py 83-104). The external call
`librosa.effects.split(data, top_db)` is modelled by the `intervals`
parameter (the detected raw active ranges) and `total = data.shape[0]` by
the `total` parameter; the rest of the body is embedded as written:
`entries_from_intervals`, then `merge_intervals` with
`min_gap = int(min_silence_len_sec * sr)`, then `entries_to_segments`. -/
def split_audio_into_segments (intervals : List (Int × Int)) (total : Int)
    (sr : Int) (min_silence_len_sec : ℚ) (pad_sec : ℚ) : List Segment :=
  let entries := entries_from_intervals intervals total
  let min_gap := pyInt (min_silence_len_sec * (sr : ℚ))
  let collapsed := merge_intervals entries min_gap
  entries_to_segments collapsed sr total pad_sec

/-- Python truthiness of the optional `hf_token` string argument
(`if hf_token:`): `None` and the empty string are falsy. -/
def pyTruthy (t : Option String) : Bool :=
  match t with
  | none => false
  | some st => !(st == "")

/-- Speaker-labeled segment dict built on the pyannote success path of
`diarize_with_silence` (keys `start_time_sec`, `end_time_sec`, `label`). -/
structure SpeakerSeg where
  start_time_sec : ℚ
  end_time_sec : ℚ
  label : String
deriving DecidableEq, Repr

/-- Result of `diarize_with_silence`: either speaker-labeled segments from
the pyannote path or the fallback splitter's speech/silence segments (the
two paths build dicts with different key sets). -/
inductive DiarizeResult where
  | speaker : List SpeakerSeg → DiarizeResult
  | fallback : List Segment → DiarizeResult
deriving DecidableEq, Repr

/-- Embeds `diarize_with_silence(audio_file, hf_token, ...)` (audio.py
174-211). External collaborators are modelled as parameters: `tracks` is
the outcome of the whole pyannote `try` body (`Except.ok` with the
`ann.itertracks(yield_label=True)` triples `(start, end, label)`, or
`Except.error` when anything in the body raises — the caught branch warns
and falls through); `intervals`, `total`, `sr` describe the decoded
waveform exactly as in `split_audio_into_segments`, which the fallback
calls with its default parameters `min_silence_len_sec=1.0, pad_sec=0.0`.
The unused Python parameter `silence_threshold` is omitted. -/
def diarize_with_silence (hf_token : Option String)
    (tracks : Except Unit (List (ℚ × ℚ × Option String)))
    (intervals : List (Int × Int)) (total : Int) (sr : Int) : DiarizeResult :=
  if pyTruthy hf_token then
    match tracks with
    | .ok ts => .speaker (ts.map fun t => ⟨t.1, t.2.1, t.2.2.getD "speaker"⟩)
    | .error _ => .fallback (split_audio_into_segments intervals total sr 1 0)
  else
    .fallback (split_audio_into_segments intervals total sr 1 0)

/-- Contiguity chain: each interval's end equals the next interval's start. -/
abbrev Contig (l : List Interval) : Prop :=
  List.Chain' (fun a b => a.e = b.s) l

/-- Adjacent intervals alternate their `is_speech` labels. -/
abbrev Alternating (l : List Interval) : Prop :=
  List.Chain' (fun a b => a.is_speech ≠ b.is_speech) l

/-- Well-formed interval sequence over `[0, total)` (spec §3): contiguous —
sorted adjacency with the first interval starting at `0` and the last
ending at `total` — with alternating labels. -/
def WellFormed (l : List Interval) (total : Int) : Prop :=
  Contig l ∧ Alternating l ∧
    l.head?.map Interval.s = some 0 ∧ l.getLast?.map Interval.e = some total

/-- Valid detector output: sorted non-overlapping raw active ranges, each
contained in `[0, total)`. -/
def ValidRanges (intervals : List (Int × Int)) (total : Int) : Prop :=
  List.Chain' (fun a b => a.2 ≤ b.1) intervals ∧
    ∀ r ∈ intervals, 0 ≤ r.1 ∧ r.1 < r.2 ∧ r.2 ≤ total

/-- Stability relation on adjacent accumulated intervals: a silence is never
followed by another silence, and a speech interval following a silence sits
strictly more than `min_gap` samples after it. A list whose adjacent pairs
satisfy this is a fixed point of `merge_intervals`. -/
def Stable (min_gap : Int) (a b : Interval) : Prop :=
  a.is_speech = false → (b.is_speech = true ∧ min_gap < b.s - a.e)

/-! ## Basic facts about `step`, the body of the `_reducer` closure -/

lemma step_nil (g : Int) (cur : Interval) : step g [] cur = [cur] := rfl

lemma step_concat (g : Int) (front : List Interval) (p cur : Interval) :
    step g (front ++ [p]) cur =
      if p.is_speech = false ∧ cur.is_speech = false ∧ cur.e - cur.s ≤ g then
        front ++ [⟨p.s, cur.e, false⟩]
      else if p.is_speech = false ∧ cur.is_speech = true ∧ cur.s - p.e ≤ g then
        front ++ [⟨p.s, cur.e, true⟩]
      else (front ++ [p]) ++ [cur] := by
  simp [step, List.getLast?_concat, List.dropLast_concat]

lemma step_ne_nil (g : Int) (acc : List Interval) (cur : Interval) :
    step g acc cur ≠ [] := by
  rcases List.eq_nil_or_concat acc with h | ⟨front, p, h⟩ <;> subst h
  · simp [step_nil]
  · rw [List.concat_eq_append, step_concat]
    split
    · simp
    · split <;> simp

lemma step_last_e (g : Int) (acc : List Interval) (cur : Interval) :
    (step g acc cur).getLast?.map Interval.e = some cur.e := by
  rcases List.eq_nil_or_concat acc with h | ⟨front, p, h⟩ <;> subst h
  · simp [step_nil]
  · rw [List.concat_eq_append, step_concat]
    split
    · simp [List.getLast?_concat]
    · split <;> simp [List.getLast?_concat]

lemma step_head_s (g : Int) (acc : List Interval) (cur : Interval) (v : Int)
    (h : acc.head?.map Interval.s = some v) :
    (step g acc cur).head?.map Interval.s = some v := by
  rcases List.eq_nil_or_concat acc with hn | ⟨front, p, hn⟩ <;> subst hn
  · simp at h
  · rw [List.concat_eq_append, step_concat]
    rcases front with _ | ⟨f, fr⟩
    · simp at h
      split
      · simpa using h
      · split <;> simpa using h
    · simp at h
      split
      · simpa using h
      · split <;> simpa using h

/-! ## Facts about the fold `merge_intervals` -/

lemma foldl_step_ne_nil (g : Int) :
    ∀ (rest acc : List Interval), acc ≠ [] → (rest.foldl (step g) acc) ≠ [] := by
  intro rest
  induction rest with
  | nil => intro acc h; simpa using h
  | cons c cs ih => intro acc _; exact ih (step g acc c) (step_ne_nil g acc c)

lemma foldl_step_head_s (g : Int) :
    ∀ (rest acc : List Interval) (v : Int), acc.head?.map Interval.s = some v →
      (rest.foldl (step g) acc).head?.map Interval.s = some v := by
  intro rest
  induction rest with
  | nil => intro acc v h; simpa using h
  | cons c cs ih => intro acc v h; exact ih (step g acc c) v (step_head_s g acc c v h)

lemma foldl_step_last_e (g : Int) :
    ∀ (rest acc : List Interval), acc ≠ [] →
      (rest.foldl (step g) acc).getLast?.map Interval.e
        = ((acc ++ rest).getLast?).map Interval.e := by
  intro rest
  induction rest with
  | nil => intro acc _; simp
  | cons c cs ih =>
    intro acc hacc
    rw [List.foldl_cons, ih (step g acc c) (step_ne_nil g acc c)]
    rcases cs with _ | ⟨d, ds⟩
    · simp only [List.append_nil]
      rw [step_last_e g acc c]
      rw [List.getLast?_concat, Option.map_some']
    · have h1 : (step g acc c ++ d :: ds).getLast? = (d :: ds).getLast? :=
        List.getLast?_append_of_ne_nil _ (by simp)
      have h2 : (acc ++ c :: d :: ds).getLast? = (d :: ds).getLast? := by
        have : acc ++ c :: d :: ds = (acc ++ [c]) ++ d :: ds := by simp
        rw [this]
        exact List.getLast?_append_of_ne_nil _ (by simp)
      rw [h1, h2]

lemma merge_intervals_eq_nil_iff (entries : List Interval) (g : Int) :
    merge_intervals entries g = [] ↔ entries = [] := by
  constructor
  · intro h
    rcases entries with _ | ⟨c, cs⟩
    · rfl
    · exfalso
      have : merge_intervals (c :: cs) g ≠ [] := by
        unfold merge_intervals
        rw [List.foldl_cons, step_nil]
        exact foldl_step_ne_nil g cs [c] (by simp)
      exact this h
  · intro h; subst h; rfl

lemma merge_intervals_head_s (entries : List Interval) (g : Int) (h : entries ≠ []) :
    (merge_intervals entries g).head?.map Interval.s = entries.head?.map Interval.s := by
  rcases entries with _ | ⟨c, cs⟩
  · exact absurd rfl h
  · unfold merge_intervals
    rw [List.foldl_cons, step_nil]
    rw [foldl_step_head_s g cs [c] c.s (by simp)]
    simp

lemma merge_intervals_last_e (entries : List Interval) (g : Int) (h : entries ≠ []) :
    (merge_intervals entries g).getLast?.map Interval.e
      = entries.getLast?.map Interval.e := by
  rcases entries with _ | ⟨c, cs⟩
  · exact absurd rfl h
  · unfold merge_intervals
    rw [List.foldl_cons, step_nil]
    rw [foldl_step_last_e g cs [c] (by simp)]
    simp

/-- Invariant-preservation scheme for a left fold: if each step of `f`
preserves a predicate relating the accumulator to the remaining input, the
final accumulator satisfies the predicate with no input remaining. -/
lemma foldl_inv {α β : Type} (f : β → α → β) (P : List α → β → Prop)
    (hstep : ∀ cur rest acc, P (cur :: rest) acc → P rest (f acc cur)) :
    ∀ (rest : List α) (acc : β), P rest acc → P [] (rest.foldl f acc) := by
  intro rest
  induction rest with
  | nil => intro acc h; exact h
  | cons c cs ih => intro acc h; exact ih (f acc c) (hstep c cs acc h)

/-! ## Contiguity is preserved by the merge fold -/

/-- Fold invariant for contiguity: the remaining input is chain-contiguous,
the accumulator is chain-contiguous, and the accumulator's last interval
ends where the next input interval starts. -/
def ContigInv (rest acc : List Interval) : Prop :=
  Contig rest ∧ Contig acc ∧
    ∀ p ∈ acc.getLast?, ∀ c ∈ rest.head?, p.e = c.s

lemma contigInv_step (g : Int) (cur : Interval) (rest acc : List Interval)
    (h : ContigInv (cur :: rest) acc) : ContigInv rest (step g acc cur) := by
  obtain ⟨hch, hacc, hlink⟩ := h
  have hrest : Contig rest := (List.chain'_cons'.mp hch).2
  have hcurlink : ∀ c ∈ rest.head?, cur.e = c.s := (List.chain'_cons'.mp hch).1
  rcases List.eq_nil_or_concat acc with hn | ⟨front, p, hn⟩ <;> subst hn
  · refine ⟨hrest, ?_, ?_⟩
    · rw [step_nil]; exact List.chain'_singleton cur
    · intro q hq c hc
      rw [step_nil] at hq
      simp at hq
      subst hq
      exact hcurlink c hc
  · rw [List.concat_eq_append] at hacc hlink ⊢
    have hpe : p.e = cur.s := by
      exact hlink p (by rw [List.getLast?_concat]; rfl) cur rfl
    obtain ⟨hfront, -, hrel⟩ := List.chain'_append.mp hacc
    rw [step_concat]
    split
    · refine ⟨hrest, ?_, ?_⟩
      · refine List.chain'_append.mpr ⟨hfront, List.chain'_singleton _, ?_⟩
        intro x hx y hy
        simp at hy
        subst hy
        exact hrel x hx p (by simp)
      · intro q hq c hc
        rw [List.getLast?_concat] at hq
        simp at hq
        subst hq
        exact hcurlink c hc
    · split
      · refine ⟨hrest, ?_, ?_⟩
        · refine List.chain'_append.mpr ⟨hfront, List.chain'_singleton _, ?_⟩
          intro x hx y hy
          simp at hy
          subst hy
          exact hrel x hx p (by simp)
        · intro q hq c hc
          rw [List.getLast?_concat] at hq
          simp at hq
          subst hq
          exact hcurlink c hc
      · refine ⟨hrest, ?_, ?_⟩
        · refine List.chain'_append.mpr ⟨hacc, List.chain'_singleton _, ?_⟩
          intro x hx y hy
          rw [List.getLast?_concat] at hx
          simp at hx hy
          subst hx
          subst hy
          exact hpe
        · intro q hq c hc
          rw [List.append_assoc, List.getLast?_append_of_ne_nil _ (by simp)] at hq
          simp at hq
          subst hq
          exact hcurlink c hc

/-- Merging a chain-contiguous interval list yields a chain-contiguous list. -/
lemma merge_intervals_contig (entries : List Interval) (g : Int)
    (h : Contig entries) : Contig (merge_intervals entries g) := by
  have := foldl_inv (step g) ContigInv (contigInv_step g) entries []
    ⟨h, List.chain'_nil, by simp⟩
  exact this.2.1

/-! ## The merge fold produces a `Stable` chain on alternating input,
and `Stable` chains are fixed points of the fold -/

/-- Fold invariant for stability: the remaining input alternates labels,
adjacent accumulated intervals are `Stable`, and the accumulator's last
label differs from the next input interval's label. -/
def StableInv (g : Int) (rest acc : List Interval) : Prop :=
  Alternating rest ∧ List.Chain' (Stable g) acc ∧
    ∀ p ∈ acc.getLast?, ∀ c ∈ rest.head?, p.is_speech ≠ c.is_speech

lemma stableInv_step (g : Int) (cur : Interval) (rest acc : List Interval)
    (h : StableInv g (cur :: rest) acc) : StableInv g rest (step g acc cur) := by
  obtain ⟨hch, hacc, hlink⟩ := h
  have hrest : Alternating rest := (List.chain'_cons'.mp hch).2
  have hcurlink : ∀ c ∈ rest.head?, cur.is_speech ≠ c.is_speech :=
    (List.chain'_cons'.mp hch).1
  rcases List.eq_nil_or_concat acc with hn | ⟨front, p, hn⟩ <;> subst hn
  · refine ⟨hrest, ?_, ?_⟩
    · rw [step_nil]; exact List.chain'_singleton cur
    · intro q hq c hc
      rw [step_nil] at hq
      simp at hq
      subst hq
      exact hcurlink c hc
  · rw [List.concat_eq_append] at hacc hlink ⊢
    have hplabel : p.is_speech ≠ cur.is_speech := by
      exact hlink p (by rw [List.getLast?_concat]; rfl) cur rfl
    obtain ⟨hfront, -, hrel⟩ := List.chain'_append.mp hacc
    have hfront_last_speech : ∀ x ∈ front.getLast?, p.is_speech = false →
        x.is_speech = true := by
      intro x hx hp
      by_contra hxs
      have hsx : x.is_speech = false := by
        cases hxs' : x.is_speech
        · rfl
        · exact absurd hxs' hxs
      have := (hrel x hx p (by simp)) hsx
      rw [this.1] at hp
      exact absurd hp (by simp)
    rw [step_concat]
    split
    case isTrue hcond =>
      exact absurd (hcond.1 ▸ hcond.2.1.symm) hplabel
    case isFalse hcond1 =>
      split
      case isTrue hcond =>
        refine ⟨hrest, ?_, ?_⟩
        · refine List.chain'_append.mpr ⟨hfront, List.chain'_singleton _, ?_⟩
          intro x hx y hy
          simp at hy
          subst hy
          intro hxs
          exact absurd (hfront_last_speech x hx hcond.1) (by simp [hxs])
        · intro q hq c hc
          rw [List.getLast?_concat] at hq
          simp at hq
          subst hq
          have : cur.is_speech ≠ c.is_speech := hcurlink c hc
          simpa [hcond.2.1] using this
      case isFalse hcond2 =>
        refine ⟨hrest, ?_, ?_⟩
        · refine List.chain'_append.mpr ⟨hacc, List.chain'_singleton _, ?_⟩
          intro x hx y hy
          rw [List.getLast?_concat] at hx
          simp at hx hy
          subst hx
          subst hy
          intro hps
          have hcsp : cur.is_speech = true := by
            cases hc : cur.is_speech
            · exact absurd (hps ▸ hc ▸ rfl : p.is_speech = cur.is_speech) hplabel
            · rfl
          refine ⟨hcsp, ?_⟩
          by_contra hle
          push_neg at hle
          exact hcond2 ⟨hps, hcsp, hle⟩
        · intro q hq c hc
          rw [List.append_assoc, List.getLast?_append_of_ne_nil _ (by simp)] at hq
          simp at hq
          subst hq
          exact hcurlink c hc

/-- On input with alternating labels, the merge fold's output is a
`Stable` chain: no silence-silence adjacency, and any speech interval
following a silence starts strictly more than `min_gap` after it. -/
lemma merge_intervals_stable (entries : List Interval) (g : Int)
    (h : Alternating entries) : List.Chain' (Stable g) (merge_intervals entries g) := by
  have := foldl_inv (step g) (StableInv g) (stableInv_step g) entries []
    ⟨h, List.chain'_nil, by simp⟩
  exact this.2.1

lemma merge_fix_aux (g : Int) :
    ∀ (rest : List Interval) (a : Interval) (front : List Interval),
      List.Chain' (Stable g) (a :: rest) →
      rest.foldl (step g) (front ++ [a]) = front ++ a :: rest := by
  intro rest
  induction rest with
  | nil => intro a front _; simp
  | cons b rs ih =>
    intro a front h
    have hS : Stable g a b := (List.chain'_cons.mp h).1
    have hrest : List.Chain' (Stable g) (b :: rs) := (List.chain'_cons.mp h).2
    have hstep : step g (front ++ [a]) b = (front ++ [a]) ++ [b] := by
      rw [step_concat]
      cases ha : a.is_speech
      · obtain ⟨hbs, hgap⟩ := hS ha
        rw [if_neg, if_neg]
        · rintro ⟨-, -, hle⟩
          exact absurd hle (by omega)
        · rintro ⟨-, hb2, -⟩
          rw [hbs] at hb2
          exact absurd hb2 (by simp)
      · rw [if_neg, if_neg]
        · rintro ⟨ha2, -, -⟩
          exact absurd ha2 (by simp)
        · rintro ⟨ha2, -, -⟩
          exact absurd ha2 (by simp)
    rw [List.foldl_cons, hstep]
    have := ih b (front ++ [a]) hrest
    simpa using this

/-- A `Stable` chain is a fixed point of `merge_intervals`. -/
lemma merge_intervals_fix (o : List Interval) (g : Int)
    (h : List.Chain' (Stable g) o) : merge_intervals o g = o := by
  rcases o with _ | ⟨a, rest⟩
  · rfl
  · unfold merge_intervals
    rw [List.foldl_cons, step_nil]
    have := merge_fix_aux g rest a [] h
    simpa using this

/-! ## Remaining structural helpers -/

lemma interleave_ne_nil (xs ys : List Interval) (h : xs ≠ []) :
    interleave xs ys ≠ [] := by
  rcases xs with _ | ⟨x, xs⟩
  · exact absurd rfl h
  · cases ys <;> simp [interleave]

lemma entries_from_intervals_ne_nil (intervals : List (Int × Int)) (total : Int) :
    entries_from_intervals intervals total ≠ [] := by
  rcases intervals with _ | ⟨first, rest⟩
  · simp [entries_from_intervals]
  · unfold entries_from_intervals
    intro hcontra
    rw [List.append_eq_nil, List.append_eq_nil] at hcontra
    exact interleave_ne_nil _ _ (by simp) hcontra.1.2

lemma merge_intervals_append_single (entries : List Interval) (c : Interval) (g : Int) :
    merge_intervals (entries ++ [c]) g = step g (merge_intervals entries g) c := by
  unfold merge_intervals
  rw [List.foldl_append]
  rfl

lemma entries_to_segments_label (collapsed : List Interval) (sr total : Int)
    (pad_sec : ℚ) :
    ∀ seg ∈ entries_to_segments collapsed sr total pad_sec,
      seg.label = "speech" ∨ seg.label = "silence" := by
  intro seg hseg
  unfold entries_to_segments at hseg
  simp only [List.mem_map] at hseg
  obtain ⟨iv, -, hseg⟩ := hseg
  subst hseg
  cases iv.is_speech <;> simp

lemma entries_to_segments_length (collapsed : List Interval) (sr total : Int)
    (pad_sec : ℚ) :
    (entries_to_segments collapsed sr total pad_sec).length = collapsed.length := by
  unfold entries_to_segments
  simp

/-! ## Claim C8 — the concrete merge fixture -/

/-- C8: `merge_intervals` applied to `[(0,10,False), (11,12,False),
(20,30,True)]` with `min_gap = 2` returns exactly
`[(0,12,False), (20,30,True)]`: the two adjacent short silences fuse and
the speech interval remains unchanged. -/
theorem merge_intervals_fixture :
    merge_intervals [⟨0, 10, false⟩, ⟨11, 12, false⟩, ⟨20, 30, true⟩] 2
      = [⟨0, 12, false⟩, ⟨20, 30, true⟩] := by decide

/-! ## Claim C9 — empty detector output -/

/-- C9: for every `total`, `entries_from_intervals` applied to an empty
list of raw active ranges returns exactly the single silence interval
`[(0, total, False)]`; in particular for `total = 12345` it returns
`[(0, 12345, False)]`. -/
theorem entries_from_intervals_empty :
    (∀ total : Int, entries_from_intervals [] total = [⟨0, total, false⟩]) ∧
      entries_from_intervals [] 12345 = [⟨0, 12345, false⟩] :=
  ⟨fun _ => rfl, rfl⟩

/-! ## Claim C1 — the interval builder is NOT well-formed on touching
ranges: evaluating the code at a failing input -/

/-- C1 (failing-input evaluation): on the valid, sorted, non-overlapping
ranges `[(0,10), (10,20), (25,30)]` with `total = 30` — the first two
touching exactly — `entries_from_intervals` emits the silence gap
`(20,25)` directly after the FIRST speech interval (the compressed silence
list is paired positionally by `zip_longest` with the speech list), so the
output is neither sorted/contiguous nor alternating, contradicting the
claimed well-formedness. -/
theorem entries_from_intervals_touching_not_wellformed :
    ValidRanges [(0, 10), (10, 20), (25, 30)] 30 ∧
    entries_from_intervals [(0, 10), (10, 20), (25, 30)] 30
      = [⟨0, 10, true⟩, ⟨20, 25, false⟩, ⟨10, 20, true⟩, ⟨25, 30, true⟩] ∧
    ¬ Contig [(⟨0, 10, true⟩ : Interval), ⟨20, 25, false⟩, ⟨10, 20, true⟩,
      ⟨25, 30, true⟩] ∧
    ¬ Alternating [(⟨0, 10, true⟩ : Interval), ⟨20, 25, false⟩, ⟨10, 20, true⟩,
      ⟨25, 30, true⟩] := by
  refine ⟨⟨?_, ?_⟩, by decide, ?_, ?_⟩
  · simp [List.chain'_cons, List.chain'_singleton]
  · intro r hr
    fin_cases hr <;> norm_num
  · simp [List.chain'_cons, List.chain'_singleton]
  · simp [List.chain'_cons, List.chain'_singleton]

/-! ## Claim C2 — the silence-then-speech merge rule -/

/-- C2 (counterexample): the claim predicts a merge exactly when the gap
length equals the previous silence's length (and is at most `min_gap`).
At `entries = [(0,100,False), (100,200,True)]`, `min_gap = 2`, the gap is
`100 - 100 = 0` while the silence's length is `100 - 0 = 100`, so the
claim predicts the speech interval is appended unchanged; the code merges
the pair into a single speech interval `(0,200,True)` instead. -/
theorem merge_intervals_ruleB_counterexample :
    merge_intervals [⟨0, 100, false⟩, ⟨100, 200, true⟩] 2 = [⟨0, 200, true⟩] ∧
    (100 : Int) - 100 ≠ 100 - 0 ∧
    merge_intervals [⟨0, 100, false⟩, ⟨100, 200, true⟩] 2
      ≠ [⟨0, 100, false⟩, ⟨100, 200, true⟩] := by
  refine ⟨by decide, by decide, by decide⟩

/-- C2 (amended): when the last accumulated interval is silence
`(ps, pe, False)` and the current interval is speech `(s, e, True)`, the
two are merged into a single speech interval `(ps, e, True)` exactly when
the gap `s - pe` is at most `min_gap`; otherwise the speech interval is
appended unchanged. -/
theorem merge_intervals_silence_speech_rule (entries : List Interval)
    (g ps pe s e : Int)
    (h : (merge_intervals entries g).getLast? = some ⟨ps, pe, false⟩) :
    merge_intervals (entries ++ [⟨s, e, true⟩]) g =
      if s - pe ≤ g then
        (merge_intervals entries g).dropLast ++ [⟨ps, e, true⟩]
      else
        merge_intervals entries g ++ [⟨s, e, true⟩] := by
  rw [merge_intervals_append_single]
  unfold step
  rw [h]
  simp only
  rw [if_neg (by simp)]
  by_cases hc : s - pe ≤ g
  · rw [if_pos ⟨trivial, trivial, hc⟩, if_pos hc]
  · rw [if_neg (fun hcon => hc hcon.2.2), if_neg hc]

/-- Witness for the amended C2 rule at a concrete input: previous silence
`(0,10)`, incoming speech `(11,20)`, `min_gap = 2`. -/
theorem merge_intervals_silence_speech_rule_witness :
    merge_intervals ([⟨0, 10, false⟩] ++ [⟨11, 20, true⟩]) 2 =
      if (11 : Int) - 10 ≤ 2 then
        (merge_intervals [⟨0, 10, false⟩] 2).dropLast ++ [⟨0, 20, true⟩]
      else
        merge_intervals [⟨0, 10, false⟩] 2 ++ [⟨11, 20, true⟩] :=
  merge_intervals_silence_speech_rule [⟨0, 10, false⟩] 2 0 10 11 20 (by decide)

/-! ## Claim C3 — well-formedness across `merge_intervals` -/

/-- C3 (counterexample): on the well-formed input
`[(0,1,F),(1,2,T),(2,3,F),(3,4,T)]` over `[0,4)` with `min_gap = 0`, the
merge output is `[(0,2,T),(2,4,T)]`: two adjacent intervals with the same
`isSpeech` label, so the output is not well-formed (contiguity holds,
alternation does not). -/
theorem merge_intervals_wellformed_counterexample :
    WellFormed [⟨0, 1, false⟩, ⟨1, 2, true⟩, ⟨2, 3, false⟩, ⟨3, 4, true⟩] 4 ∧
    (0 : Int) ≤ 0 ∧
    merge_intervals [⟨0, 1, false⟩, ⟨1, 2, true⟩, ⟨2, 3, false⟩, ⟨3, 4, true⟩] 0
      = [⟨0, 2, true⟩, ⟨2, 4, true⟩] ∧
    ¬ Alternating [(⟨0, 2, true⟩ : Interval), ⟨2, 4, true⟩] := by
  refine ⟨⟨?_, ?_, by simp, by simp⟩, by decide, by decide, ?_⟩
  · simp [List.chain'_cons, List.chain'_singleton]
  · simp [List.chain'_cons, List.chain'_singleton]
  · simp [List.chain'_cons, List.chain'_singleton]

/-- C3 (amended): for every well-formed input sequence over `[0, total)`
and every `min_gap ≥ 0`, `merge_intervals` returns a sequence that is
still contiguous — adjacent intervals meet exactly, the first starts at 0
and the last ends at `total` (no gaps, no overlaps) — but alternation of
the `isSpeech` labels is not preserved in general. -/
theorem merge_intervals_preserves_contiguity (entries : List Interval)
    (total g : Int) (hwf : WellFormed entries total) (_hg : 0 ≤ g) :
    Contig (merge_intervals entries g) ∧
    (merge_intervals entries g).head?.map Interval.s = some 0 ∧
    (merge_intervals entries g).getLast?.map Interval.e = some total := by
  obtain ⟨hcon, -, hhead, hlast⟩ := hwf
  have hne : entries ≠ [] := by
    intro hnil
    rw [hnil] at hhead
    simp at hhead
  refine ⟨merge_intervals_contig entries g hcon, ?_, ?_⟩
  · rw [merge_intervals_head_s entries g hne]
    exact hhead
  · rw [merge_intervals_last_e entries g hne]
    exact hlast

/-- Witness for the amended C3 at the well-formed input
`[(0,3,F),(3,7,T)]` over `[0,7)` with `min_gap = 0`. -/
theorem merge_intervals_preserves_contiguity_witness :
    Contig (merge_intervals [⟨0, 3, false⟩, ⟨3, 7, true⟩] 0) ∧
    (merge_intervals [⟨0, 3, false⟩, ⟨3, 7, true⟩] 0).head?.map Interval.s = some 0 ∧
    (merge_intervals [⟨0, 3, false⟩, ⟨3, 7, true⟩] 0).getLast?.map Interval.e
      = some 7 :=
  merge_intervals_preserves_contiguity [⟨0, 3, false⟩, ⟨3, 7, true⟩] 7 0
    ⟨by simp [List.chain'_pair], by simp [List.chain'_pair], by simp, by simp⟩
    (by decide)

/-! ## Claim C6 — idempotence of `merge_intervals` -/

/-- C6 (counterexample): `merge_intervals` is not idempotent on arbitrary
input. On `[(0,10,F),(10,20,F),(22,30,T)]` with `min_gap = 5` the first
pass yields `[(0,10,F),(10,30,T)]` (the second silence is absorbed into
the speech interval, rule B), and a second pass merges further to
`[(0,30,T)]`, so re-applying `merge_intervals` changes the result. -/
theorem merge_intervals_idempotence_counterexample :
    merge_intervals [⟨0, 10, false⟩, ⟨10, 20, false⟩, ⟨22, 30, true⟩] 5
      = [⟨0, 10, false⟩, ⟨10, 30, true⟩] ∧
    merge_intervals
        (merge_intervals [⟨0, 10, false⟩, ⟨10, 20, false⟩, ⟨22, 30, true⟩] 5) 5
      = [⟨0, 30, true⟩] ∧
    merge_intervals
        (merge_intervals [⟨0, 10, false⟩, ⟨10, 20, false⟩, ⟨22, 30, true⟩] 5) 5
      ≠ merge_intervals [⟨0, 10, false⟩, ⟨10, 20, false⟩, ⟨22, 30, true⟩] 5 := by
  refine ⟨by decide, by decide, by decide⟩

/-- C6 (amended): for every interval list whose adjacent intervals
alternate `isSpeech` labels — in particular every well-formed input — and
every `min_gap`, `merge_intervals` is idempotent: applying it a second
time with the same `min_gap` to its own output returns that output
unchanged. -/
theorem merge_intervals_idempotent_of_alternating (entries : List Interval)
    (g : Int) (halt : Alternating entries) :
    merge_intervals (merge_intervals entries g) g = merge_intervals entries g :=
  merge_intervals_fix (merge_intervals entries g) g
    (merge_intervals_stable entries g halt)

/-- Witness for the amended C6 at the alternating input
`[(0,3,F),(3,7,T)]` with `min_gap = 1`. -/
theorem merge_intervals_idempotent_of_alternating_witness :
    merge_intervals (merge_intervals [⟨0, 3, false⟩, ⟨3, 7, true⟩] 1) 1
      = merge_intervals [⟨0, 3, false⟩, ⟨3, 7, true⟩] 1 :=
  merge_intervals_idempotent_of_alternating [⟨0, 3, false⟩, ⟨3, 7, true⟩] 1
    (by simp [List.chain'_pair])

/-! ## Claim C10 — the merge preserves emptiness and the overall span -/

/-- C10: for every interval list and every `min_gap`, `merge_intervals`
returns the empty list iff its input is empty, and on non-empty input the
first output interval's start equals the first input interval's start and
the last output interval's end equals the last input interval's end —
merging never shifts the overall span's endpoints. -/
theorem merge_intervals_span (entries : List Interval) (g : Int) :
    (merge_intervals entries g = [] ↔ entries = []) ∧
    (entries ≠ [] →
      (merge_intervals entries g).head?.map Interval.s
        = entries.head?.map Interval.s ∧
      (merge_intervals entries g).getLast?.map Interval.e
        = entries.getLast?.map Interval.e) :=
  ⟨merge_intervals_eq_nil_iff entries g,
    fun h => ⟨merge_intervals_head_s entries g h, merge_intervals_last_e entries g h⟩⟩

/-- Witness for C10 at the input `[(0,5,F),(5,9,T)]`, `min_gap = 1`. -/
theorem merge_intervals_span_witness :
    ([⟨0, 5, false⟩, ⟨5, 9, true⟩] : List Interval) ≠ [] ∧
    ((merge_intervals [⟨0, 5, false⟩, ⟨5, 9, true⟩] 1).head?.map Interval.s
        = ([⟨0, 5, false⟩, ⟨5, 9, true⟩] : List Interval).head?.map Interval.s ∧
      (merge_intervals [⟨0, 5, false⟩, ⟨5, 9, true⟩] 1).getLast?.map Interval.e
        = ([⟨0, 5, false⟩, ⟨5, 9, true⟩] : List Interval).getLast?.map Interval.e) :=
  ⟨by decide, (merge_intervals_span [⟨0, 5, false⟩, ⟨5, 9, true⟩] 1).2 (by decide)⟩

/-! ## Claim C4 — the splitter is total: non-empty output, labels from
the two-element set -/

lemma split_audio_into_segments_eq (intervals : List (Int × Int))
    (total sr : Int) (min_silence_len_sec pad_sec : ℚ) :
    split_audio_into_segments intervals total sr min_silence_len_sec pad_sec
      = entries_to_segments
          (merge_intervals (entries_from_intervals intervals total)
            (pyInt (min_silence_len_sec * (sr : ℚ))))
          sr total pad_sec := rfl

/-- C4: for every waveform whose detected active ranges are sorted,
non-overlapping and within `[0, total)`, `split_audio_into_segments` (a
total function in this embedding — it raises no exception) returns a
non-empty list of segments whose labels are drawn only from
`{"speech", "silence"}`. -/
theorem split_audio_into_segments_safe (intervals : List (Int × Int))
    (total sr : Int) (min_silence_len_sec pad_sec : ℚ)
    (_h : ValidRanges intervals total) :
    split_audio_into_segments intervals total sr min_silence_len_sec pad_sec ≠ [] ∧
    ∀ seg ∈ split_audio_into_segments intervals total sr min_silence_len_sec pad_sec,
      seg.label = "speech" ∨ seg.label = "silence" := by
  rw [split_audio_into_segments_eq]
  constructor
  · intro hnil
    have hm : merge_intervals (entries_from_intervals intervals total)
        (pyInt (min_silence_len_sec * (sr : ℚ))) ≠ [] := by
      rw [Ne, merge_intervals_eq_nil_iff]
      exact entries_from_intervals_ne_nil intervals total
    have hlen := entries_to_segments_length
      (merge_intervals (entries_from_intervals intervals total)
        (pyInt (min_silence_len_sec * (sr : ℚ)))) sr total pad_sec
    rw [hnil] at hlen
    exact hm (List.eq_nil_of_length_eq_zero hlen.symm)
  · exact entries_to_segments_label _ sr total pad_sec

/-- Witness for C4 at the single detected range `(2,5)` in a 6-sample
waveform, `sr = 1`, defaults `min_silence_len_sec = 1`, `pad_sec = 0`. -/
theorem split_audio_into_segments_safe_witness :
    split_audio_into_segments [(2, 5)] 6 1 1 0 ≠ [] ∧
    ∀ seg ∈ split_audio_into_segments [(2, 5)] 6 1 1 0,
      seg.label = "speech" ∨ seg.label = "silence" :=
  split_audio_into_segments_safe [(2, 5)] 6 1 1 0
    ⟨by simp [List.chain'_singleton], by intro r hr; fin_cases hr; norm_num⟩

/-! ## Claim C5 — `diarize_with_silence` degrades to the standalone
splitter when no credential is given or the pipeline fails -/

/-- C5: whenever `hf_token` is absent (Python-falsy), or the pyannote
pipeline body fails with any exception, `diarize_with_silence` propagates
no failure and returns exactly the segments the energy-based splitter
`split_audio_into_segments` produces standalone, with its default
parameters, on the same decoded waveform. -/
theorem diarize_with_silence_fallback (hf_token : Option String)
    (tracks : Except Unit (List (ℚ × ℚ × Option String)))
    (intervals : List (Int × Int)) (total sr : Int)
    (h : pyTruthy hf_token = false ∨ ∃ u, tracks = .error u) :
    diarize_with_silence hf_token tracks intervals total sr
      = .fallback (split_audio_into_segments intervals total sr 1 0) := by
  rcases h with h | ⟨u, h⟩
  · simp [diarize_with_silence, h]
  · subst h
    simp [diarize_with_silence]

/-- Witness for C5: no credential at all (`hf_token = none`). -/
theorem diarize_with_silence_fallback_witness :
    diarize_with_silence none (.error ()) [(0, 4)] 4 2
      = .fallback (split_audio_into_segments [(0, 4)] 4 2 1 0) :=
  diarize_with_silence_fallback none (.error ()) [(0, 4)] 4 2 (Or.inl rfl)

/-! ## Claim C7 — the segment formatter: padded clamped speech bounds,
exact silence bounds, labels and default transcript -/

lemma zip_self_map {α β : Type} (l : List α) (f : α → β) :
    l.zip (l.map f) = l.map fun a => (a, f a) := by
  induction l with
  | nil => rfl
  | cons a as ih => simp [ih]

/-- C7: for every interval list, `sr > 0`, `total` and `pad_sec ≥ 0`,
`entries_to_segments` maps (pointwise, with `pad = int(pad_sec * sr)`)
each speech interval `(s,e)` to `start_time_sec = max(0, s - pad)/sr` and
`end_time_sec = min(total, e + pad)/sr` — hence no speech segment starts
before 0 or ends after `total/sr`, even with nonzero padding — and each
silence interval to its exact unpadded boundaries `s/sr` and `e/sr`, with
label `"speech"`/`"silence"` and `transcript = ""`. -/
theorem entries_to_segments_spec (collapsed : List Interval) (sr total : Int)
    (pad_sec : ℚ) (hsr : 0 < sr) (_hpad : 0 ≤ pad_sec) :
    (entries_to_segments collapsed sr total pad_sec).length = collapsed.length ∧
    ∀ p ∈ collapsed.zip (entries_to_segments collapsed sr total pad_sec),
      (p.1.is_speech = true →
        p.2.start_time_sec
          = ((max 0 (p.1.s - pyInt (pad_sec * (sr : ℚ))) : Int) : ℚ) / (sr : ℚ) ∧
        p.2.end_time_sec
          = ((min total (p.1.e + pyInt (pad_sec * (sr : ℚ))) : Int) : ℚ) / (sr : ℚ) ∧
        0 ≤ p.2.start_time_sec ∧
        p.2.end_time_sec ≤ (total : ℚ) / (sr : ℚ) ∧
        p.2.label = "speech") ∧
      (p.1.is_speech = false →
        p.2.start_time_sec = (p.1.s : ℚ) / (sr : ℚ) ∧
        p.2.end_time_sec = (p.1.e : ℚ) / (sr : ℚ) ∧
        p.2.label = "silence") ∧
      p.2.transcript = "" := by
  have hsrq : (0 : ℚ) < (sr : ℚ) := by exact_mod_cast hsr
  refine ⟨entries_to_segments_length collapsed sr total pad_sec, ?_⟩
  intro p hp
  unfold entries_to_segments at hp
  simp only [] at hp
  rw [zip_self_map] at hp
  simp only [List.mem_map] at hp
  obtain ⟨iv, -, hpeq⟩ := hp
  subst hpeq
  cases hsp : iv.is_speech
  · rw [if_neg (show ¬(false = true) by simp)]
    refine ⟨fun hcontra => absurd hcontra (by simp), fun _ => ⟨rfl, rfl, rfl⟩, rfl⟩
  · rw [if_pos rfl]
    refine ⟨fun _ => ⟨rfl, rfl, ?_, ?_, rfl⟩, fun hcontra => absurd hcontra (by simp), rfl⟩
    · apply div_nonneg _ (le_of_lt hsrq)
      exact_mod_cast le_max_left 0 (iv.s - pyInt (pad_sec * (sr : ℚ)))
    · rw [div_le_div_iff_of_pos_right hsrq]
      exact_mod_cast min_le_left total (iv.e + pyInt (pad_sec * (sr : ℚ)))

/-- Witness for C7 at `collapsed = [(0,4,T),(4,8,F)]`, `sr = 2`,
`total = 8`, `pad_sec = 1/2`. -/
theorem entries_to_segments_spec_witness :
    (entries_to_segments [⟨0, 4, true⟩, ⟨4, 8, false⟩] 2 8 (1/2)).length
        = ([⟨0, 4, true⟩, ⟨4, 8, false⟩] : List Interval).length ∧
    ∀ p ∈ ([⟨0, 4, true⟩, ⟨4, 8, false⟩] : List Interval).zip
        (entries_to_segments [⟨0, 4, true⟩, ⟨4, 8, false⟩] 2 8 (1/2)),
      (p.1.is_speech = true →
        p.2.start_time_sec
          = ((max 0 (p.1.s - pyInt ((1/2) * ((2 : Int) : ℚ))) : Int) : ℚ) / ((2 : Int) : ℚ) ∧
        p.2.end_time_sec
          = ((min 8 (p.1.e + pyInt ((1/2) * ((2 : Int) : ℚ))) : Int) : ℚ) / ((2 : Int) : ℚ) ∧
        0 ≤ p.2.start_time_sec ∧
        p.2.end_time_sec ≤ ((8 : Int) : ℚ) / ((2 : Int) : ℚ) ∧
        p.2.label = "speech") ∧
      (p.1.is_speech = false →
        p.2.start_time_sec = (p.1.s : ℚ) / ((2 : Int) : ℚ) ∧
        p.2.end_time_sec = (p.1.e : ℚ) / ((2 : Int) : ℚ) ∧
        p.2.label = "silence") ∧
      p.2.transcript = "" :=
  entries_to_segments_spec [⟨0, 4, true⟩, ⟨4, 8, false⟩] 2 8 (1/2)
    (by norm_num) (by norm_num)

end Sonix
